import Mathlib

/-!
# Verification of staticcheck's flow-sensitive lint rules

This file is a shallow embedding, in Lean 4, of the flow-sensitive analysis
core of `lint.go` from `honnef.co/go/staticcheck` (package `staticcheck`):

* `consts` (lint.go:1381-1420) — constant resolution through conversions and
  phi nodes, with cycle protection and adjacent deduplication;
* `CheckPredeterminedBooleanExprs` (lint.go:1254-1303) — tautological
  comparison detection over the resolved constant sets;
* `CheckInfiniteRecursion` (lint.go:2117-2166) — dominator-based detection of
  unavoidable self-recursion;
* `CheckIneffectiveLoop` (lint.go:1538-1643) — unconditionally terminated
  loops, over the Go AST;
* `CheckIneffecitiveFieldAssignments` (lint.go:1095-1208) — dead stores to
  receiver fields, over the SSA CFG;
* `CheckIneffectiveAppend` (lint.go:1771-1859) — append results consumed only
  by further appends, over the SSA def-use graph.

Machine integers do not occur on any modelled path; Go `int` values that feed
comparisons are modelled as `Int`, source positions as `Int`, counters as
`Nat`.  Go maps used as sets are modelled as lists with insert-if-absent, and
`range` over a Go map — whose iteration order the Go specification leaves
undefined — is modelled by an explicit enumeration-order parameter together
with a validity predicate.
-/

namespace StaticCheck

/-! ## Constant resolution (`consts`, lint.go:1381-1420)

`Konst` models a `*ssa.Const` reduced to its `Value` field: `none` is a nil
constant (`c.Value == nil`, as produced for nil pointers, interfaces, slices,
maps, channels and functions), `some k` an integer constant value.  Equality
of `Konst` models Go's interface equality on `constant.Value`, under which
two equal integer values compare equal and two nil interfaces compare equal.
-/

abbrev Konst := Option Int

mutual
/-- The `ssa.Value` shapes inspected by `consts` (lint.go:1386-1407): a
literal constant, a `*ssa.Convert`, a `*ssa.Phi` (carrying its SSA name, the
key of `visitedPhis`, and its incoming operands), and `unknown` for every
other value kind, which hits the `default` branch and fails resolution. -/
inductive SSAValue where
  | const (c : Konst)
  | convert (x : SSAValue)
  | phi (nm : String) (ops : VList)
  | unknown

/-- Operand list of a phi node (`val.Operands(nil)`, lint.go:1392). -/
inductive VList where
  | nil
  | cons (v : SSAValue) (rest : VList)
end

/-- Operand list as a plain Lean list. -/
def VList.toList : VList → List SSAValue
  | .nil => []
  | .cons v rest => v :: rest.toList

/-- Inner loop of the deduplication pass (lint.go:1413-1418): drop an element
equal to the last kept one, otherwise keep it and compare against it next. -/
def dedupAux (last : Konst) : List Konst → List Konst
  | [] => []
  | v :: rest => if v = last then dedupAux last rest else v :: dedupAux v rest

/-- The deduplication loop of `consts` (lint.go:1412-1418): `uniq` starts as
`[out[0]]` and each later element is kept only if it differs from the last
kept element — only adjacent duplicates are removed. -/
def dedupRun : List Konst → List Konst
  | [] => []
  | x :: rest => x :: dedupAux x rest

/-- The common exit path of `consts` (lint.go:1409-1419): a result of fewer
than two constants is returned as is, otherwise the adjacent-deduplication
loop runs. -/
def finOut (out : List Konst) : List Konst :=
  if out.length < 2 then out else dedupRun out

mutual
/-- Shallow embedding of `consts(val, out, visitedPhis)` (lint.go:1381-1420).
The Go function threads a growing `out` slice and mutates the shared
`visitedPhis` map in place; both are threaded explicitly here, and `none`
models `return nil, false`.  A phi already in `visitedPhis` hits `break` and
falls through to the common exit with `out` unchanged; an unvisited phi is
marked first and its operands are resolved in order, sharing the visited set;
a constant is appended to `out`; a conversion resolves its operand; every
other value kind fails, and any failing sub-resolution propagates. -/
def constsF : SSAValue → List Konst → List String → Option (List Konst × List String)
  | .phi nm ops, out, vis =>
    if nm ∈ vis then some (finOut out, vis)
    else (constsOps ops out (nm :: vis)).map fun r => (finOut r.1, r.2)
  | .const c, out, vis => some (finOut (out ++ [c]), vis)
  | .convert x, out, vis => (constsF x out vis).map fun r => (finOut r.1, r.2)
  | .unknown, _, _ => none

/-- The operand loop of the phi case (lint.go:1392-1398), threading `out` and
the visited set and short-circuiting on the first failure. -/
def constsOps : VList → List Konst → List String → Option (List Konst × List String)
  | .nil, out, vis => some (out, vis)
  | .cons v rest, out, vis =>
    match constsF v out vis with
    | none => none
    | some r => constsOps rest r.1 r.2
end

/-- A top-level query `consts(v, nil, nil)` (lint.go:1274-1275), keeping the
resolved constants; `none` models `ok == false`. -/
def constsTop (v : SSAValue) : Option (List Konst) :=
  (constsF v [] []).map Prod.fst

/-! ## Tautological comparisons (`CheckPredeterminedBooleanExprs`, lint.go:1254-1303) -/

/-- The six comparison operators admitted by the rule (lint.go:1260-1264). -/
inductive CmpOp where
  | eql | neq | lss | leq | gtr | geq
  deriving DecidableEq

/-- `go/constant.Compare` on two integer constant values. -/
def compareInt (x : Int) : CmpOp → Int → Bool
  | .eql, y => decide (x = y)
  | .neq, y => decide (x ≠ y)
  | .lss, y => decide (x < y)
  | .leq, y => decide (x ≤ y)
  | .gtr, y => decide (y < x)
  | .geq, y => decide (y ≤ x)

/-- Contribution of a single `(x, y)` pair to the `trues` counter
(lint.go:1281-1292): a nil left operand counts 1 exactly when the right
operand is also nil and skips the comparison otherwise; a non-nil left
operand is passed to `constant.Compare`, which panics on a nil right operand
(a nil interface matches no case of its type switch and reaches the trailing
`panic`), modelled as `none`. -/
def pairContrib (op : CmpOp) (x y : Konst) : Option Nat :=
  match x with
  | none => some (if y = none then 1 else 0)
  | some xv =>
    match y with
    | none => none
    | some yv => some (if compareInt xv op yv then 1 else 0)

/-- Inner loop over `ys` for a fixed `x` (lint.go:1282-1292). -/
def rowTrues (op : CmpOp) (x : Konst) : List Konst → Option Nat
  | [] => some 0
  | y :: ys =>
    match pairContrib op x y, rowTrues op x ys with
    | some a, some b => some (a + b)
    | _, _ => none

/-- The nested counting loops of the rule (lint.go:1280-1293); `none` models
the run aborting in `constant.Compare`. -/
def countTrues (op : CmpOp) : List Konst → List Konst → Option Nat
  | [], _ => some 0
  | x :: xs, ys =>
    match rowTrues op x ys, countTrues op xs ys with
    | some a, some b => some (a + b)
    | _, _ => none

/-- Outcome of `CheckPredeterminedBooleanExprs` on one comparison: no
diagnostic, a crash inside `constant.Compare`, or a diagnostic naming the
predetermined outcome. -/
inductive PredetResult where
  | skip
  | crash
  | diag (alwaysB : Bool)
  deriving DecidableEq

/-- Shallow embedding of `CheckPredeterminedBooleanExprs` (lint.go:1254-1303)
on a single comparison whose operands have been resolved to SSA values: both
sides are resolved with `consts`; a failed or empty resolution skips
(lint.go:1276-1278); otherwise every pairwise combination is counted and the
diagnostic `"... is always %t for all possible values"` fires exactly when
the count is zero or the full product (lint.go:1294-1298). -/
def checkPredeterminedBooleanExprs (op : CmpOp) (x y : SSAValue) : PredetResult :=
  match constsTop x, constsTop y with
  | some xs, some ys =>
    if xs.length = 0 ∨ ys.length = 0 then .skip
    else
      match countTrues op xs ys with
      | none => .crash
      | some t =>
        if t = 0 ∨ t = xs.length * ys.length then .diag (t != 0) else .skip
  | _, _ => .skip

/-! ### Structure of deduplicated outputs -/

theorem dedupAux_chain (l : List Konst) : ∀ a, List.Chain' (· ≠ ·) (a :: dedupAux a l) := by
  induction l with
  | nil => intro a; simp [dedupAux]
  | cons v rest ih =>
    intro a
    by_cases h : v = a
    · simpa [dedupAux, h] using ih a
    · simp only [dedupAux, if_neg h]
      exact List.chain'_cons.mpr ⟨fun hav => h hav.symm, ih v⟩

theorem finOut_chain (out : List Konst) : List.Chain' (· ≠ ·) (finOut out) := by
  cases out with
  | nil => simp [finOut]
  | cons a t =>
    cases t with
    | nil => simp [finOut]
    | cons b t' =>
      have hlen : ¬((a :: b :: t').length < 2) := by simp
      rw [finOut, if_neg hlen]
      simpa [dedupRun] using dedupAux_chain (b :: t') a

theorem dedupAux_of_chain : ∀ (t : List Konst) (a : Konst),
    List.Chain' (· ≠ ·) (a :: t) → dedupAux a t = t := by
  intro t
  induction t with
  | nil => intro a _; simp [dedupAux]
  | cons v rest ih =>
    intro a h
    rw [List.chain'_cons] at h
    have hv : ¬(v = a) := fun hh => h.1 hh.symm
    simp only [dedupAux, if_neg hv]
    rw [ih v h.2]

theorem finOut_of_chain {l : List Konst} (h : List.Chain' (· ≠ ·) l) : finOut l = l := by
  cases l with
  | nil => simp [finOut]
  | cons a t =>
    rw [finOut]
    by_cases hl : (a :: t).length < 2
    · rw [if_pos hl]
    · rw [if_neg hl]
      simp only [dedupRun]
      rw [dedupAux_of_chain t a h]

theorem constsF_finalized (v : SSAValue) (out : List Konst) (vis : List String)
    {r : List Konst × List String} (h : constsF v out vis = some r) :
    ∃ x, r.1 = finOut x := by
  cases v with
  | const c =>
    simp only [constsF] at h
    exact ⟨out ++ [c], by cases h; rfl⟩
  | convert x =>
    simp only [constsF] at h
    rw [Option.map_eq_some'] at h
    obtain ⟨r', _, heq⟩ := h
    exact ⟨r'.1, by rw [← heq]⟩
  | phi nm ops =>
    simp only [constsF] at h
    by_cases hv : nm ∈ vis
    · rw [if_pos hv] at h
      exact ⟨out, by cases h; rfl⟩
    · rw [if_neg hv, Option.map_eq_some'] at h
      obtain ⟨r', _, heq⟩ := h
      exact ⟨r'.1, by rw [← heq]⟩
  | unknown => simp [constsF] at h

/-- C6 (amended): the deduplication pass of `consts` only removes *adjacent*
duplicates, so all a successful resolution guarantees is that no two adjacent
constants in the result are equal. -/
theorem consts_no_adjacent_duplicates (v : SSAValue) (l : List Konst)
    (h : constsTop v = some l) : List.Chain' (· ≠ ·) l := by
  unfold constsTop at h
  rw [Option.map_eq_some'] at h
  obtain ⟨r, hr, heq⟩ := h
  obtain ⟨x, hx⟩ := constsF_finalized v [] [] hr
  rw [← heq, hx]
  exact finOut_chain x

/-- Witness for `consts_no_adjacent_duplicates` at a concrete phi. -/
theorem consts_no_adjacent_duplicates_witness :
    List.Chain' (· ≠ ·) [some (1 : Int), some 2, some 1] :=
  consts_no_adjacent_duplicates
    (.phi "p" (.cons (.const (some 1)) (.cons (.const (some 2))
      (.cons (.const (some 1)) .nil)))) _ (by rfl)

/-- C6 counterexample: a phi whose operands are the constants 1, 2, 1 (in
that order) resolves to `[1, 2, 1]` — the constant 1 appears twice, because
the deduplication loop of `consts` compares each element only against the
previously kept one. -/
theorem consts_duplicates_counterexample :
    constsTop (.phi "p" (.cons (.const (some 1)) (.cons (.const (some 2))
      (.cons (.const (some 1)) .nil)))) = some [some 1, some 2, some 1] ∧
    ¬ List.Nodup [some (1 : Int), some 2, some 1] :=
  ⟨by rfl, by decide⟩

theorem constsOps_unknown_mem (ops : VList) (out : List Konst) (vis : List String)
    (h : SSAValue.unknown ∈ ops.toList) : constsOps ops out vis = none := by
  match ops with
  | .nil => simp [VList.toList] at h
  | .cons v rest =>
    simp only [VList.toList, List.mem_cons] at h
    cases h with
    | inl h =>
      cases h
      simp [constsOps, constsF]
    | inr h =>
      simp only [constsOps]
      cases hc : constsF v out vis with
      | none => rfl
      | some r => exact constsOps_unknown_mem rest r.1 r.2 h

theorem mem_dedupAux (l : List Konst) :
    ∀ (a c : Konst), c ∈ a :: dedupAux a l ↔ c ∈ a :: l := by
  induction l with
  | nil => intro a c; simp [dedupAux]
  | cons v rest ih =>
    intro a c
    by_cases h : v = a
    · rw [show dedupAux a (v :: rest) = dedupAux a rest from by simp [dedupAux, h]]
      rw [ih a c]
      subst h
      simp only [List.mem_cons]
      tauto
    · rw [show dedupAux a (v :: rest) = v :: dedupAux v rest from by simp [dedupAux, h]]
      have h2 := ih v c
      simp only [List.mem_cons] at h2 ⊢
      tauto

theorem mem_finOut (l : List Konst) (c : Konst) : c ∈ finOut l ↔ c ∈ l := by
  unfold finOut
  split
  · exact Iff.rfl
  · cases l with
    | nil => simp [dedupRun]
    | cons a t => simpa [dedupRun] using mem_dedupAux t a c

mutual
/-- Modelled from the spec: the declared contract of `constants_of` — a
literal constant resolves to itself, a conversion to its operand's
constants, "a phi resolves to the union of the constants of all its incoming
operands, with cycle protection (a phi already being resolved returns no
additional constants rather than looping)", and "any other instruction kind
resolves to failure, which must short-circuit the whole query to failure".
The operand contributions are concatenated (their union), with no
accumulator and no deduplication; `consts_resolution_cases` proves that the
implementation agrees with this contract on failure and on membership. -/
def specConstsF : SSAValue → List String → Option (List Konst × List String)
  | .const c, vis => some ([c], vis)
  | .convert x, vis => specConstsF x vis
  | .phi nm ops, vis =>
    if nm ∈ vis then some ([], vis)
    else specConstsOps ops (nm :: vis)
  | .unknown, _ => none

/-- Modelled from the spec: the union of the phi operands' contributions,
threading the cycle-protection set and failing as soon as any operand
fails. -/
def specConstsOps : VList → List String → Option (List Konst × List String)
  | .nil, vis => some ([], vis)
  | .cons v rest, vis =>
    match specConstsF v vis with
    | none => none
    | some r =>
      match specConstsOps rest r.2 with
      | none => none
      | some t => some (r.1 ++ t.1, t.2)
end

/-- The spec's resolution at top level. -/
def specConstsTop (v : SSAValue) : Option (List Konst) :=
  (specConstsF v []).map Prod.fst

mutual
theorem constsF_agrees (v : SSAValue) (out : List Konst) (vis : List String) :
    (constsF v out vis = none ↔ specConstsF v vis = none) ∧
    (∀ o w, constsF v out vis = some (o, w) →
      ∃ s, specConstsF v vis = some (s, w) ∧ ∀ c, c ∈ o ↔ (c ∈ out ∨ c ∈ s)) := by
  cases v with
  | const c =>
    constructor
    · simp [constsF, specConstsF]
    · intro o w h
      simp only [constsF] at h
      injection h with h1
      injection h1 with ho hw
      subst ho
      subst hw
      refine ⟨[c], rfl, fun c' => ?_⟩
      rw [mem_finOut]
      exact List.mem_append
  | unknown =>
    constructor
    · simp [constsF, specConstsF]
    · intro o w h
      simp [constsF] at h
  | convert x =>
    have ih := constsF_agrees x out vis
    constructor
    · simp only [constsF, specConstsF]
      rw [Option.map_eq_none']
      exact ih.1
    · intro o w h
      simp only [constsF] at h
      rw [Option.map_eq_some'] at h
      obtain ⟨r, hr, heq⟩ := h
      injection heq with ho hw
      subst ho
      subst hw
      obtain ⟨s, hs, hm⟩ := ih.2 r.1 r.2 (by rw [hr])
      refine ⟨s, by simp only [specConstsF]; exact hs, fun c' => ?_⟩
      rw [mem_finOut]
      exact hm c'
  | phi nm ops =>
    by_cases hv : nm ∈ vis
    · constructor
      · simp only [constsF, specConstsF]
        rw [if_pos hv, if_pos hv]
        simp
      · intro o w h
        simp only [constsF] at h
        rw [if_pos hv] at h
        injection h with h1
        injection h1 with ho hw
        subst ho
        subst hw
        refine ⟨[], ?_, fun c' => ?_⟩
        · simp only [specConstsF]
          rw [if_pos hv]
        · rw [mem_finOut]
          simp
    · have ih := constsOps_agrees ops out (nm :: vis)
      constructor
      · simp only [constsF, specConstsF]
        rw [if_neg hv, if_neg hv, Option.map_eq_none']
        exact ih.1
      · intro o w h
        simp only [constsF] at h
        rw [if_neg hv, Option.map_eq_some'] at h
        obtain ⟨r, hr, heq⟩ := h
        injection heq with ho hw
        subst ho
        subst hw
        obtain ⟨s, hs, hm⟩ := ih.2 r.1 r.2 (by rw [hr])
        refine ⟨s, ?_, fun c' => ?_⟩
        · simp only [specConstsF]
          rw [if_neg hv]
          exact hs
        · rw [mem_finOut]
          exact hm c'

theorem constsOps_agrees (ops : VList) (out : List Konst) (vis : List String) :
    (constsOps ops out vis = none ↔ specConstsOps ops vis = none) ∧
    (∀ o w, constsOps ops out vis = some (o, w) →
      ∃ s, specConstsOps ops vis = some (s, w) ∧ ∀ c, c ∈ o ↔ (c ∈ out ∨ c ∈ s)) := by
  cases ops with
  | nil =>
    constructor
    · simp [constsOps, specConstsOps]
    · intro o w h
      simp only [constsOps] at h
      injection h with h1
      injection h1 with ho hw
      subst ho
      subst hw
      exact ⟨[], rfl, fun c' => by simp⟩
  | cons v rest =>
    have ihv := constsF_agrees v out vis
    constructor
    · simp only [constsOps, specConstsOps]
      cases hv : constsF v out vis with
      | none =>
        simp [ihv.1.mp hv]
      | some r =>
        obtain ⟨s, hs, -⟩ := ihv.2 r.1 r.2 (by rw [hv])
        rw [hs]
        have ihr := constsOps_agrees rest r.1 r.2
        cases hrest : specConstsOps rest r.2 with
        | none => simp [ihr.1, hrest]
        | some t => simp [ihr.1, hrest]
    · intro o w h
      simp only [constsOps] at h
      cases hv : constsF v out vis with
      | none =>
        rw [hv] at h
        simp at h
      | some r =>
        rw [hv] at h
        obtain ⟨s₁, hs₁, hm₁⟩ := ihv.2 r.1 r.2 (by rw [hv])
        obtain ⟨s₂, hs₂, hm₂⟩ := (constsOps_agrees rest r.1 r.2).2 o w h
        refine ⟨s₁ ++ s₂, ?_, fun c' => ?_⟩
        · simp only [specConstsOps]
          rw [hs₁]
          simp only
          rw [hs₂]
        · rw [hm₂ c', hm₁ c']
          simp only [List.mem_append]
          tauto
end

/-- C2: the behaviour of `consts` by value kind — a literal constant
resolves to itself; a conversion resolves to the constants of its operand;
any other value kind resolves to failure; the implementation fails exactly
when the spec's resolution (`specConstsF`: a phi is the union of the
constants of all its incoming operands, with cycle protection, any failure
short-circuiting) fails, and on success contains exactly the constants of
that union; a phi operand that is not statically known short-circuits the
whole phi to failure; and a phi operand that is a phi already under
resolution (same `visitedPhis` key) contributes no additional constants
instead of looping. -/
theorem consts_resolution_cases :
    (∀ c : Konst, constsTop (.const c) = some [c]) ∧
    (∀ v : SSAValue, constsTop (.convert v) = constsTop v) ∧
    (constsTop .unknown = none) ∧
    (∀ v : SSAValue, constsTop v = none ↔ specConstsTop v = none) ∧
    (∀ (v : SSAValue) (l s : List Konst), constsTop v = some l →
      specConstsTop v = some s → ∀ c, c ∈ l ↔ c ∈ s) ∧
    (∀ (nm : String) (ops : VList), SSAValue.unknown ∈ ops.toList →
      constsTop (.phi nm ops) = none) ∧
    (∀ (nm : String) (inner ops : VList),
      constsTop (.phi nm (.cons (.phi nm inner) ops)) = constsTop (.phi nm ops)) := by
  refine ⟨fun c => rfl, ?_, rfl, ?_, ?_, ?_, ?_⟩
  · intro v
    unfold constsTop
    simp only [constsF]
    cases hx : constsF v [] [] with
    | none => simp
    | some r =>
      simp only [Option.map_some']
      obtain ⟨x, hx1⟩ := constsF_finalized v [] [] hx
      rw [hx1, finOut_of_chain (finOut_chain x)]
  · intro v
    unfold constsTop specConstsTop
    rw [Option.map_eq_none', Option.map_eq_none']
    exact (constsF_agrees v [] []).1
  · intro v l s hl hs c
    unfold constsTop at hl
    rw [Option.map_eq_some'] at hl
    obtain ⟨r, hr, hl1⟩ := hl
    unfold specConstsTop at hs
    rw [Option.map_eq_some'] at hs
    obtain ⟨r', hr', hs1⟩ := hs
    obtain ⟨s', hsp, hm⟩ := (constsF_agrees v [] []).2 r.1 r.2 (by rw [hr])
    rw [hr'] at hsp
    injection hsp with h2
    subst h2
    have hss : s' = s := hs1
    have hmc := hm c
    rw [← hl1, hmc, hss]
    simp
  · intro nm ops h
    unfold constsTop
    simp only [constsF]
    rw [if_neg (List.not_mem_nil nm), constsOps_unknown_mem ops [] [nm] h]
    rfl
  · intro nm inner ops
    unfold constsTop
    simp only [constsF]
    rw [if_neg (List.not_mem_nil nm), if_neg (List.not_mem_nil nm)]
    simp only [constsOps, constsF]
    rw [if_pos (List.mem_singleton.mpr rfl)]
    rfl

/-- Witness for `consts_resolution_cases`: an unresolvable phi operand makes
the whole phi unresolvable, and the resolution of a phi of 1, 1, 2 — which
the implementation dedups to `[1, 2]` and the spec's union leaves as
`[1, 1, 2]` — contains exactly the union's constants. -/
theorem consts_resolution_cases_witness :
    constsTop (.phi "q" (.cons .unknown .nil)) = none ∧
    (∀ c : Konst, c ∈ [some (1 : Int), some 2] ↔ c ∈ [some (1 : Int), some 1, some 2]) :=
  ⟨consts_resolution_cases.2.2.2.2.2.1 "q" (.cons .unknown .nil) (by simp [VList.toList]),
   consts_resolution_cases.2.2.2.2.1
     (.phi "u" (.cons (.const (some 1)) (.cons (.const (some 1))
       (.cons (.const (some 2)) .nil))))
     [some 1, some 2] [some 1, some 1, some 2] (by rfl) (by rfl)⟩

/-! ### Counting pairwise outcomes -/

theorem pairContrib_le_one {op : CmpOp} {x y : Konst} {a : Nat}
    (h : pairContrib op x y = some a) : a ≤ 1 := by
  unfold pairContrib at h
  cases x with
  | none =>
    injection h with h1
    split at h1 <;> omega
  | some xv =>
    cases y with
    | none => simp at h
    | some yv =>
      injection h with h1
      split at h1 <;> omega

theorem rowTrues_bounds (op : CmpOp) (x : Konst) : ∀ (ys : List Konst) (t : Nat),
    rowTrues op x ys = some t →
    t ≤ ys.length ∧
    (t = ys.length ↔ ∀ y ∈ ys, pairContrib op x y = some 1) ∧
    (t = 0 ↔ ∀ y ∈ ys, pairContrib op x y = some 0) := by
  intro ys
  induction ys with
  | nil =>
    intro t h
    simp only [rowTrues] at h
    injection h with h
    subst h
    simp
  | cons y ys ih =>
    intro t h
    simp only [rowTrues] at h
    cases hp : pairContrib op x y with
    | none => rw [hp] at h; simp at h
    | some a =>
      cases hr : rowTrues op x ys with
      | none => rw [hp, hr] at h; simp at h
      | some b =>
        rw [hp, hr] at h
        injection h with h
        subst h
        obtain ⟨hb1, hb2, hb3⟩ := ih b hr
        have ha := pairContrib_le_one hp
        refine ⟨by simp; omega, ⟨?_, ?_⟩, ⟨?_, ?_⟩⟩
        · intro ht
          have ha1 : a = 1 := by simp at ht; omega
          have hbl : b = ys.length := by simp at ht; omega
          intro z hz
          rcases List.mem_cons.mp hz with h1 | h1
          · rw [h1, hp, ha1]
          · exact (hb2.mp hbl) z h1
        · intro hall
          have h1 := hall y (by simp)
          rw [hp] at h1
          injection h1 with h1
          have h2 : b = ys.length := hb2.mpr (fun z hz => hall z (by simp [hz]))
          simp
          omega
        · intro ht
          have ha0 : a = 0 := by omega
          have hb0 : b = 0 := by omega
          intro z hz
          rcases List.mem_cons.mp hz with h1 | h1
          · rw [h1, hp, ha0]
          · exact (hb3.mp hb0) z h1
        · intro hall
          have h1 := hall y (by simp)
          rw [hp] at h1
          injection h1 with h1
          have h2 : b = 0 := hb3.mpr (fun z hz => hall z (by simp [hz]))
          omega

theorem countTrues_bounds (op : CmpOp) : ∀ (xs ys : List Konst) (t : Nat),
    countTrues op xs ys = some t →
    t ≤ xs.length * ys.length ∧
    (t = xs.length * ys.length ↔ ∀ a ∈ xs, ∀ b ∈ ys, pairContrib op a b = some 1) ∧
    (t = 0 ↔ ∀ a ∈ xs, ∀ b ∈ ys, pairContrib op a b = some 0) := by
  intro xs
  induction xs with
  | nil =>
    intro ys t h
    simp only [countTrues] at h
    injection h with h
    subst h
    simp
  | cons x xs ih =>
    intro ys t h
    simp only [countTrues] at h
    cases hr : rowTrues op x ys with
    | none => rw [hr] at h; simp at h
    | some a =>
      cases hc : countTrues op xs ys with
      | none => rw [hr, hc] at h; simp at h
      | some b =>
        rw [hr, hc] at h
        injection h with h
        subst h
        obtain ⟨ha1, ha2, ha3⟩ := rowTrues_bounds op x ys a hr
        obtain ⟨hb1, hb2, hb3⟩ := ih ys b hc
        refine ⟨by simp [Nat.succ_mul]; omega, ⟨?_, ?_⟩, ⟨?_, ?_⟩⟩
        · intro ht
          have haa : a = ys.length := by simp [Nat.succ_mul] at ht; omega
          have hbb : b = xs.length * ys.length := by simp [Nat.succ_mul] at ht; omega
          intro z hz
          rcases List.mem_cons.mp hz with h1 | h1
          · rw [h1]; exact ha2.mp haa
          · exact (hb2.mp hbb) z h1
        · intro hall
          have h1 : a = ys.length := ha2.mpr (hall x (by simp))
          have h2 : b = xs.length * ys.length :=
            hb2.mpr (fun z hz => hall z (by simp [hz]))
          simp [Nat.succ_mul]
          omega
        · intro ht
          have haa : a = 0 := by omega
          have hbb : b = 0 := by omega
          intro z hz
          rcases List.mem_cons.mp hz with h1 | h1
          · rw [h1]; exact ha3.mp haa
          · exact (hb3.mp hbb) z h1
        · intro hall
          have h1 : a = 0 := ha3.mpr (hall x (by simp))
          have h2 : b = 0 := hb3.mpr (fun z hz => hall z (by simp [hz]))
          omega

/-- C1: for a comparison whose two sides resolve to nonempty constant sets,
and on which every pairwise comparison is defined, the rule emits "always
true" exactly when every pairwise combination compares true, "always false"
exactly when every combination compares false, emits some diagnostic exactly
when the outcome is uniform, and a failed resolution of either side never
produces a diagnostic. -/
theorem predetermined_diag_iff (op : CmpOp) (x y : SSAValue) (xs ys : List Konst)
    (hx : constsTop x = some xs) (hy : constsTop y = some ys)
    (hxe : xs ≠ []) (hye : ys ≠ [])
    (hdef : countTrues op xs ys ≠ none) :
    (checkPredeterminedBooleanExprs op x y = .diag true ↔
      ∀ a ∈ xs, ∀ b ∈ ys, pairContrib op a b = some 1) ∧
    (checkPredeterminedBooleanExprs op x y = .diag false ↔
      ∀ a ∈ xs, ∀ b ∈ ys, pairContrib op a b = some 0) ∧
    ((∃ d, checkPredeterminedBooleanExprs op x y = .diag d) ↔
      ((∀ a ∈ xs, ∀ b ∈ ys, pairContrib op a b = some 1) ∨
       (∀ a ∈ xs, ∀ b ∈ ys, pairContrib op a b = some 0))) ∧
    (∀ (op' : CmpOp) (x' y' : SSAValue),
      (constsTop x' = none ∨ constsTop y' = none) →
      checkPredeterminedBooleanExprs op' x' y' = .skip) := by
  obtain ⟨t, ht⟩ : ∃ t, countTrues op xs ys = some t := by
    cases hc : countTrues op xs ys with
    | none => exact absurd hc hdef
    | some t => exact ⟨t, rfl⟩
  obtain ⟨hb1, hb2, hb3⟩ := countTrues_bounds op xs ys t ht
  have hxl : xs.length ≠ 0 := by simpa [List.length_eq_zero] using hxe
  have hyl : ys.length ≠ 0 := by simpa [List.length_eq_zero] using hye
  have hcond : ¬(xs.length = 0 ∨ ys.length = 0) := by simp [hxl, hyl]
  have hrule : checkPredeterminedBooleanExprs op x y =
      (if t = 0 ∨ t = xs.length * ys.length then .diag (t != 0) else .skip) := by
    unfold checkPredeterminedBooleanExprs
    rw [hx, hy]
    simp only [ht, if_neg hcond]
  have hprod : xs.length * ys.length ≠ 0 := Nat.mul_ne_zero hxl hyl
  refine ⟨⟨?_, ?_⟩, ⟨?_, ?_⟩, ⟨?_, ?_⟩, ?_⟩
  · intro h
    rw [hrule] at h
    split at h
    · rename_i hc
      have hne : t ≠ 0 := by
        intro h0
        rw [h0] at h
        simp at h
      have : t = xs.length * ys.length := by tauto
      exact hb2.mp this
    · simp at h
  · intro h
    have h1 : t = xs.length * ys.length := hb2.mpr h
    rw [hrule, if_pos (Or.inr h1)]
    have : t ≠ 0 := by omega
    simp [this]
  · intro h
    rw [hrule] at h
    split at h
    · rename_i hc
      have hne : t = 0 := by
        by_contra h0
        simp [h0] at h
      exact hb3.mp hne
    · simp at h
  · intro h
    have h1 : t = 0 := hb3.mpr h
    rw [hrule, if_pos (Or.inl h1)]
    simp [h1]
  · rintro ⟨d, hd⟩
    rw [hrule] at hd
    split at hd
    · rename_i hc
      rcases hc with hc | hc
      · exact Or.inr (hb3.mp hc)
      · exact Or.inl (hb2.mp hc)
    · simp at hd
  · intro h
    rcases h with h | h
    · have h1 : t = xs.length * ys.length := hb2.mpr h
      exact ⟨t != 0, by rw [hrule, if_pos (Or.inr h1)]⟩
    · have h1 : t = 0 := hb3.mpr h
      exact ⟨t != 0, by rw [hrule, if_pos (Or.inl h1)]⟩
  · intro op' x' y' h
    rcases h with h | h
    · unfold checkPredeterminedBooleanExprs
      rw [h]
    · unfold checkPredeterminedBooleanExprs
      rw [h]
      cases constsTop x' <;> rfl

/-- Witness for `predetermined_diag_iff`: the spec's three scenarios —
`x == x` with `x = 5` is "always true", `{1,2} == {3}` is "always false", and
an unresolvable side yields nothing. -/
theorem predetermined_diag_iff_witness :
    checkPredeterminedBooleanExprs .eql (.const (some 5)) (.const (some 5)) = .diag true ∧
    checkPredeterminedBooleanExprs .eql
      (.phi "x" (.cons (.const (some 1)) (.cons (.const (some 2)) .nil)))
      (.const (some 3)) = .diag false ∧
    checkPredeterminedBooleanExprs .eql (.const (some 5)) .unknown = .skip := by
  refine ⟨?_, ?_, ?_⟩
  · exact (predetermined_diag_iff .eql (.const (some 5)) (.const (some 5)) [some 5] [some 5]
      rfl rfl (by simp) (by simp) (by decide)).1.mpr (by decide)
  · exact (predetermined_diag_iff .eql
      (.phi "x" (.cons (.const (some 1)) (.cons (.const (some 2)) .nil)))
      (.const (some 3)) [some 1, some 2] [some 3] rfl rfl (by simp)
      (by simp) (by decide)).2.1.mpr (by decide)
  · exact (predetermined_diag_iff .eql (.const (some 5)) (.const (some 5)) [some 5] [some 5]
      rfl rfl (by simp) (by simp) (by decide)).2.2.2 .eql (.const (some 5)) .unknown
      (Or.inr rfl)

/-- C10 (amended): in the pairwise evaluation, two nil constants count as a
"true" outcome for every operator and a nil left operand with a non-nil right
operand counts as "false" for every operator; a non-nil left operand with a
nil right operand is handed to `constant.Compare`, for which a nil operand is
an invalid comparison (it panics), so that pair is not counted at all. -/
theorem nil_pair_outcomes (op : CmpOp) (a b : Int) :
    pairContrib op none none = some 1 ∧
    pairContrib op none (some b) = some 0 ∧
    pairContrib op (some a) none = none := by
  refine ⟨rfl, ?_, rfl⟩
  simp [pairContrib]

/-- C10 counterexample: the pair (constant 0, nil constant) is not counted as
a "false" outcome — the rule's counting loop aborts inside
`constant.Compare`, and on a comparison containing such a pair the rule
crashes instead of counting. -/
theorem nil_pair_counterexample :
    pairContrib .eql (some 0) none ≠ some 0 ∧
    checkPredeterminedBooleanExprs .eql (.const (some 0)) (.const none) = .crash :=
  ⟨by decide, by rfl⟩

/-! ## A generic marked depth-first search

`CheckInfiniteRecursion`, `CheckIneffecitiveFieldAssignments` and
`CheckIneffectiveAppend` all walk a finite graph recursively with a mutable
visited map (`seen` / `visited` in the Go source), stopping at the first node
satisfying a predicate.  `searchF` is that walk as a worklist: `dom` is the
node universe (nodes outside it are marked but never expanded — they do not
occur in the Go inputs), `succ` the edge function, `hit` the stopping
predicate.  Pushing the successors of a node in front of the remaining
worklist reproduces exactly the traversal order and the evolution of the
visited set of the Go recursion.  The fuel argument only bounds the
recursion; `searchGo` always supplies enough (`searchF_isSome`). -/

def searchF (dom : List Nat) (succ : Nat → List Nat) (hit : Nat → Bool) :
    Nat → List Nat → List Nat → Option (Bool × List Nat)
  | 0, _, _ => none
  | _ + 1, [], seen => some (false, seen)
  | fuel + 1, b :: rest, seen =>
    if b ∈ seen then searchF dom succ hit fuel rest seen
    else if hit b then some (true, b :: seen)
    else if b ∈ dom then searchF dom succ hit fuel (succ b ++ rest) (b :: seen)
    else searchF dom succ hit fuel rest (b :: seen)

/-- Total length of the successor lists of the not-yet-seen universe nodes:
an upper bound on how much the worklist can still grow. -/
def searchBudget (dom : List Nat) (succ : Nat → List Nat) (seen : List Nat) : Nat :=
  ((dom.filter (fun b => decide (b ∉ seen))).map (fun b => (succ b).length)).sum

/-- The marked depth-first search with sufficient fuel. -/
def searchGo (dom : List Nat) (succ : Nat → List Nat) (hit : Nat → Bool)
    (stack seen : List Nat) : Bool × List Nat :=
  (searchF dom succ hit (stack.length + searchBudget dom succ seen + 1) stack seen).getD
    (false, seen)

theorem searchBudget_mono (dom : List Nat) (succ : Nat → List Nat) (b : Nat)
    (seen : List Nat) : searchBudget dom succ (b :: seen) ≤ searchBudget dom succ seen := by
  unfold searchBudget
  refine List.Sublist.sum_le_sum ?_ (fun a _ => Nat.zero_le a)
  refine List.Sublist.map _ (List.monotone_filter_right dom (fun a ha => ?_))
  simp only [decide_eq_true_eq] at ha ⊢
  exact fun hc => ha (List.mem_cons_of_mem b hc)

theorem searchBudget_remove (dom : List Nat) (succ : Nat → List Nat) (b : Nat)
    (seen : List Nat) (hb : b ∈ dom) (hs : b ∉ seen) :
    searchBudget dom succ (b :: seen) + (succ b).length ≤ searchBudget dom succ seen := by
  induction dom with
  | nil => simp at hb
  | cons d dom ih =>
    unfold searchBudget
    by_cases hdb : d = b
    · subst hdb
      rw [List.filter_cons_of_neg (by simp), List.filter_cons_of_pos (by simp [hs])]
      simp only [List.map_cons, List.sum_cons]
      have hmono := searchBudget_mono dom succ d seen
      unfold searchBudget at hmono
      omega
    · have hb' : b ∈ dom := by
        rcases List.mem_cons.mp hb with h | h
        · exact absurd h.symm hdb
        · exact h
      have hstep := ih hb'
      unfold searchBudget at hstep
      by_cases h2 : d ∈ seen
      · rw [List.filter_cons_of_neg (by simp [List.mem_cons, h2]),
          List.filter_cons_of_neg (by simp [h2])]
        exact hstep
      · rw [List.filter_cons_of_pos (by simp [List.mem_cons, h2, hdb]),
          List.filter_cons_of_pos (by simp [h2])]
        simp only [List.map_cons, List.sum_cons]
        omega

theorem searchF_isSome (dom : List Nat) (succ : Nat → List Nat) (hit : Nat → Bool) :
    ∀ (fuel : Nat) (stack seen : List Nat),
    stack.length + searchBudget dom succ seen + 1 ≤ fuel →
    (searchF dom succ hit fuel stack seen).isSome := by
  intro fuel
  induction fuel with
  | zero => intro stack seen h; omega
  | succ fuel ih =>
    intro stack seen h
    cases stack with
    | nil => simp [searchF]
    | cons b rest =>
      simp only [searchF]
      by_cases h1 : b ∈ seen
      · rw [if_pos h1]
        apply ih
        simp only [List.length_cons] at h
        omega
      · rw [if_neg h1]
        by_cases h2 : hit b
        · rw [if_pos h2]; simp
        · rw [if_neg h2]
          by_cases h3 : b ∈ dom
          · rw [if_pos h3]
            apply ih
            have hrem := searchBudget_remove dom succ b seen h3 h1
            simp only [List.length_append, List.length_cons] at h ⊢
            omega
          · rw [if_neg h3]
            apply ih
            have hmono := searchBudget_mono dom succ b seen
            simp only [List.length_cons] at h ⊢
            omega

theorem searchGo_eq (dom : List Nat) (succ : Nat → List Nat) (hit : Nat → Bool)
    (stack seen : List Nat) :
    searchF dom succ hit (stack.length + searchBudget dom succ seen + 1) stack seen =
      some (searchGo dom succ hit stack seen) := by
  have h := searchF_isSome dom succ hit
    (stack.length + searchBudget dom succ seen + 1) stack seen (le_refl _)
  unfold searchGo
  cases hc : searchF dom succ hit
      (stack.length + searchBudget dom succ seen + 1) stack seen with
  | none => rw [hc] at h; simp at h
  | some r => simp

/-- One expansion step of the marked search: from a universe node to one of
its successors. -/
def SearchStep (dom : List Nat) (succ : Nat → List Nat) (x y : Nat) : Prop :=
  x ∈ dom ∧ y ∈ succ x

theorem searchF_true_reaches (dom : List Nat) (succ : Nat → List Nat) (hit : Nat → Bool) :
    ∀ (fuel : Nat) (stack seen s' : List Nat),
    searchF dom succ hit fuel stack seen = some (true, s') →
    ∃ v r, v ∈ stack ∧ Relation.ReflTransGen (SearchStep dom succ) v r ∧ hit r = true := by
  intro fuel
  induction fuel with
  | zero => intro stack seen s' h; simp [searchF] at h
  | succ fuel ih =>
    intro stack seen s' h
    cases stack with
    | nil => simp [searchF] at h
    | cons b rest =>
      simp only [searchF] at h
      by_cases h1 : b ∈ seen
      · rw [if_pos h1] at h
        obtain ⟨v, r, hv, hrtg, hr⟩ := ih rest seen s' h
        exact ⟨v, r, List.mem_cons_of_mem b hv, hrtg, hr⟩
      · rw [if_neg h1] at h
        by_cases h2 : hit b
        · exact ⟨b, b, List.mem_cons_self b rest, Relation.ReflTransGen.refl, h2⟩
        · rw [if_neg h2] at h
          by_cases h3 : b ∈ dom
          · rw [if_pos h3] at h
            obtain ⟨v, r, hv, hrtg, hr⟩ := ih (succ b ++ rest) (b :: seen) s' h
            rcases List.mem_append.mp hv with hv1 | hv1
            · exact ⟨b, r, List.mem_cons_self b rest,
                Relation.ReflTransGen.head ⟨h3, hv1⟩ hrtg, hr⟩
            · exact ⟨v, r, List.mem_cons_of_mem b hv1, hrtg, hr⟩
          · rw [if_neg h3] at h
            obtain ⟨v, r, hv, hrtg, hr⟩ := ih rest (b :: seen) s' h
            exact ⟨v, r, List.mem_cons_of_mem b hv, hrtg, hr⟩

/-- Invariant of the marked search: every seen node is a miss and its
expansion targets are seen or pending. -/
def SearchInv (dom : List Nat) (succ : Nat → List Nat) (hit : Nat → Bool)
    (stack seen : List Nat) : Prop :=
  ∀ x ∈ seen, hit x = false ∧ (x ∈ dom → ∀ y ∈ succ x, y ∈ seen ∨ y ∈ stack)

theorem searchClosed_of_rtg (dom : List Nat) (succ : Nat → List Nat) (hit : Nat → Bool)
    (seen : List Nat) (hInv : SearchInv dom succ hit [] seen) :
    ∀ v r, Relation.ReflTransGen (SearchStep dom succ) v r → v ∈ seen → r ∈ seen := by
  intro v r hrtg
  induction hrtg using Relation.ReflTransGen.head_induction_on with
  | refl => exact fun h => h
  | head hstep _ ih =>
    intro hv
    rename_i a c _
    rcases (hInv a hv).2 hstep.1 c hstep.2 with h | h
    · exact ih h
    · simp at h

theorem searchF_false_unreachable (dom : List Nat) (succ : Nat → List Nat)
    (hit : Nat → Bool) :
    ∀ (fuel : Nat) (stack seen s' : List Nat),
    SearchInv dom succ hit stack seen →
    searchF dom succ hit fuel stack seen = some (false, s') →
    ∀ v r, (v ∈ stack ∨ v ∈ seen) →
    Relation.ReflTransGen (SearchStep dom succ) v r → hit r = false := by
  intro fuel
  induction fuel with
  | zero => intro stack seen s' _ h; simp [searchF] at h
  | succ fuel ih =>
    intro stack seen s' hInv h
    cases stack with
    | nil =>
      intro v r hv hrtg
      rcases hv with hv | hv
      · simp at hv
      · exact (hInv r (searchClosed_of_rtg dom succ hit seen hInv v r hrtg hv)).1
    | cons b rest =>
      simp only [searchF] at h
      by_cases h1 : b ∈ seen
      · rw [if_pos h1] at h
        have hInv' : SearchInv dom succ hit rest seen := by
          intro x hx
          refine ⟨(hInv x hx).1, fun hxd y hy => ?_⟩
          rcases (hInv x hx).2 hxd y hy with hc | hc
          · exact Or.inl hc
          · rcases List.mem_cons.mp hc with hc1 | hc1
            · exact Or.inl (hc1 ▸ h1)
            · exact Or.inr hc1
        intro v r hv hrtg
        refine ih rest seen s' hInv' h v r ?_ hrtg
        rcases hv with hv | hv
        · rcases List.mem_cons.mp hv with hv1 | hv1
          · exact Or.inr (hv1 ▸ h1)
          · exact Or.inl hv1
        · exact Or.inr hv
      · rw [if_neg h1] at h
        by_cases h2 : hit b
        · rw [if_pos h2] at h
          simp at h
        · rw [if_neg h2] at h
          by_cases h3 : b ∈ dom
          · rw [if_pos h3] at h
            have hInv' : SearchInv dom succ hit (succ b ++ rest) (b :: seen) := by
              intro x hx
              rcases List.mem_cons.mp hx with hx1 | hx1
              · subst hx1
                exact ⟨by simpa using h2,
                  fun _ y hy => Or.inr (List.mem_append_left rest hy)⟩
              · refine ⟨(hInv x hx1).1, fun hxd y hy => ?_⟩
                rcases (hInv x hx1).2 hxd y hy with hc | hc
                · exact Or.inl (List.mem_cons_of_mem b hc)
                · rcases List.mem_cons.mp hc with hc1 | hc1
                  · exact Or.inl (hc1 ▸ List.mem_cons_self b seen)
                  · exact Or.inr (List.mem_append_right (succ b) hc1)
            intro v r hv hrtg
            refine ih (succ b ++ rest) (b :: seen) s' hInv' h v r ?_ hrtg
            rcases hv with hv | hv
            · rcases List.mem_cons.mp hv with hv1 | hv1
              · exact Or.inr (hv1 ▸ List.mem_cons_self b seen)
              · exact Or.inl (List.mem_append_right (succ b) hv1)
            · exact Or.inr (List.mem_cons_of_mem b hv)
          · rw [if_neg h3] at h
            have hInv' : SearchInv dom succ hit rest (b :: seen) := by
              intro x hx
              rcases List.mem_cons.mp hx with hx1 | hx1
              · subst hx1
                exact ⟨by simpa using h2, fun hxd => absurd hxd h3⟩
              · refine ⟨(hInv x hx1).1, fun hxd y hy => ?_⟩
                rcases (hInv x hx1).2 hxd y hy with hc | hc
                · exact Or.inl (List.mem_cons_of_mem b hc)
                · rcases List.mem_cons.mp hc with hc1 | hc1
                  · exact Or.inl (hc1 ▸ List.mem_cons_self b seen)
                  · exact Or.inr hc1
            intro v r hv hrtg
            refine ih rest (b :: seen) s' hInv' h v r ?_ hrtg
            rcases hv with hv | hv
            · rcases List.mem_cons.mp hv with hv1 | hv1
              · exact Or.inr (hv1 ▸ List.mem_cons_self b seen)
              · exact Or.inl hv1
            · exact Or.inr (List.mem_cons_of_mem b hv)

/-- Correctness of the marked search: under the visited-set invariant, it
returns true exactly when some node satisfying `hit` is reachable from the
worklist through expansion steps. -/
theorem searchGo_true_iff (dom : List Nat) (succ : Nat → List Nat) (hit : Nat → Bool)
    (stack seen : List Nat) (hInv : SearchInv dom succ hit stack seen) :
    (searchGo dom succ hit stack seen).1 = true ↔
      ∃ v r, v ∈ stack ∧ Relation.ReflTransGen (SearchStep dom succ) v r ∧
        hit r = true := by
  have heq := searchGo_eq dom succ hit stack seen
  rcases hsg : searchGo dom succ hit stack seen with ⟨res, s2⟩
  rw [hsg] at heq
  constructor
  · intro h
    simp only at h
    subst h
    exact searchF_true_reaches dom succ hit _ stack seen s2 heq
  · rintro ⟨v, r, hv, hrtg, hr⟩
    by_contra hres
    simp only at hres
    have hres' : res = false := by
      cases res
      · rfl
      · exact absurd rfl hres
    subst hres'
    exact absurd (searchF_false_unreachable dom succ hit _ stack seen s2 hInv heq
      v r (Or.inl hv) hrtg) (by simp [hr])

/-! ## Infinite recursion (`CheckInfiniteRecursion`, lint.go:2117-2166) -/

/-- The instruction kinds `CheckInfiniteRecursion` distinguishes: a direct
`*ssa.Call` of the enclosing function itself (lint.go:2132-2142), a
`*ssa.Return` (lint.go:2152), and everything else (including invoke-mode
calls and calls of other functions, which are skipped). -/
inductive RInstr where
  | callSelf
  | ret
  | rother
  deriving DecidableEq

/-- A basic block of the SSA CFG: its instruction list and the indices of its
successor blocks. -/
structure RBlock where
  instrs : List RInstr
  succs : List Nat
  deriving DecidableEq

/-- A function body: `ssafn.Blocks`, block 0 being the entry block. -/
structure RFunc where
  blocks : List RBlock
  deriving DecidableEq

def succsOfR (fn : RFunc) (b : Nat) : List Nat :=
  (fn.blocks.getD b ⟨[], []⟩).succs

/-- Does block `j` end in a `Return`? (lint.go:2149-2152: empty blocks are
skipped, otherwise the last instruction is inspected.) -/
def endsRet (fn : RFunc) (j : Nat) : Bool :=
  match (fn.blocks.getD j ⟨[], []⟩).instrs.getLast? with
  | some .ret => true
  | _ => false

/-- Is block `t` reachable from the entry block along successor edges? -/
def reachTo (fn : RFunc) (t : Nat) : Bool :=
  (searchGo (List.range fn.blocks.length) (succsOfR fn) (fun j => j == t) [0] []).1

/-- Is block `t` reachable from the entry block without passing through block
`a`?  Node `a` is deleted from the graph: paths may not start, end, or step
through it. -/
def reachDel (fn : RFunc) (a t : Nat) : Bool :=
  if 0 = a ∨ t = a then false
  else
    (searchGo (List.range fn.blocks.length)
      (fun x => (succsOfR fn x).filter (fun z => decide (z ≠ a)))
      (fun j => j == t) [0] []).1

/-- `a.Dominates(b)` of go/ssa's dominator tree, characterised over the CFG:
every path from the entry block to `b` passes through `a`; equivalently `b`
is reachable but not reachable when `a` is deleted.  go/ssa's builder prunes
unreachable blocks, so all blocks are assumed reachable where it matters. -/
def dominatesB (fn : RFunc) (a b : Nat) : Bool :=
  reachTo fn b && !(reachDel fn a b)

/-- The `canReturn` loop (lint.go:2144-2156): some block not dominated by the
call's block ends in a `Return`. -/
def canReturn (fn : RFunc) (bi : Nat) : Bool :=
  (List.range fn.blocks.length).any fun j => !(dominatesB fn bi j) && endsRet fn j

/-- Shallow embedding of `CheckInfiniteRecursion` (lint.go:2117-2166) on one
function: every direct self-call in a function with a nonempty block list is
flagged unless `canReturn` holds for its block; a diagnostic is the pair
(block index, instruction index) of the flagged call. -/
def checkInfiniteRecursion (fn : RFunc) : List (Nat × Nat) :=
  if fn.blocks.length = 0 then []
  else
    (List.range fn.blocks.length).flatMap fun bi =>
      (fn.blocks.getD bi ⟨[], []⟩).instrs.enum.filterMap fun p =>
        match p.2 with
        | .callSelf => if canReturn fn bi then none else some (bi, p.1)
        | _ => none

/-- Modelled from the claim's words: "any path forward from the call's block
reaches a Return" — some block ending in a `Return` is reachable from the
call's block along successor edges (the call's block itself included). -/
def specForwardRet (fn : RFunc) (bi : Nat) : Bool :=
  (searchGo (List.range fn.blocks.length) (succsOfR fn) (endsRet fn) [bi] []).1

/-- The function `func f() { f(); return }`: one block holding the self-call
and ending in a `Return`. -/
def infRecExample : RFunc := ⟨[⟨[.callSelf, .ret], []⟩]⟩

/-- C3 counterexample: in `func f() { f(); return }` a path forward from the
call's block (the block itself) reaches a `Return`, yet the rule fires — the
block dominates itself, so no block outside its dominance ends in a `Return`
(and the call is indeed an infinite recursion, so firing is correct; the
claim's path-forward reading is what fails). -/
theorem infinite_recursion_counterexample :
    checkInfiniteRecursion infRecExample = [(0, 0)] ∧
    specForwardRet infRecExample 0 = true := by decide

/-- A path from the entry block to `t` that never passes through `a`: this is
what failure of `a.Dominates(t)` means on a reachable CFG. -/
def AvoidPath (fn : RFunc) (a t : Nat) : Prop :=
  0 ≠ a ∧ t ≠ a ∧
    Relation.ReflTransGen
      (fun x y => x < fn.blocks.length ∧ y ∈ succsOfR fn x ∧ y ≠ a) 0 t

theorem reachDel_true_iff (fn : RFunc) (a t : Nat) :
    reachDel fn a t = true ↔ AvoidPath fn a t := by
  unfold reachDel AvoidPath
  by_cases h0 : 0 = a ∨ t = a
  · rw [if_pos h0]
    simp only [Bool.false_eq_true, false_iff]
    rintro ⟨h1, h2, _⟩
    rcases h0 with h0 | h0
    · exact h1 h0
    · exact h2 h0
  · rw [if_neg h0]
    push_neg at h0
    obtain ⟨h0a, hta⟩ := h0
    rw [searchGo_true_iff _ _ _ _ _ (by intro x hx; simp at hx)]
    have hrel : ∀ x y,
        SearchStep (List.range fn.blocks.length)
          (fun x => (succsOfR fn x).filter (fun z => decide (z ≠ a))) x y ↔
        (x < fn.blocks.length ∧ y ∈ succsOfR fn x ∧ y ≠ a) := by
      intro x y
      unfold SearchStep
      simp [List.mem_range, List.mem_filter]
    constructor
    · rintro ⟨v, r, hv, hrtg, hr⟩
      simp only [List.mem_singleton] at hv
      subst hv
      have hrt : r = t := by simpa using hr
      subst hrt
      refine ⟨h0a, hta, ?_⟩
      exact Relation.ReflTransGen.mono (fun x y h => (hrel x y).mp h) hrtg
    · rintro ⟨_, _, hrtg⟩
      refine ⟨0, t, List.mem_singleton.mpr rfl, ?_, by simp⟩
      exact Relation.ReflTransGen.mono (fun x y h => (hrel x y).mpr h) hrtg

theorem checkInfRec_mem (fn : RFunc) (bi ii : Nat) :
    (bi, ii) ∈ checkInfiniteRecursion fn ↔
      ((fn.blocks.getD bi ⟨[], []⟩).instrs.get? ii = some .callSelf ∧
        canReturn fn bi = false) := by
  unfold checkInfiniteRecursion
  by_cases hlen : fn.blocks.length = 0
  · rw [if_pos hlen]
    simp only [List.not_mem_nil, false_iff, not_and]
    intro hget
    have : bi < fn.blocks.length := by
      by_contra hbi
      rw [List.getD_eq_default] at hget
      · simp at hget
      · omega
    omega
  · rw [if_neg hlen]
    rw [List.mem_flatMap]
    constructor
    · rintro ⟨b', hb', hmem⟩
      rw [List.mem_filterMap] at hmem
      obtain ⟨⟨i, ins⟩, hin, heq⟩ := hmem
      cases ins with
      | callSelf =>
        simp only at heq
        split at heq
        · simp at heq
        · rename_i hcr
          injection heq with h1
          injection h1 with ha hb
          cases ha
          cases hb
          rw [List.mk_mem_enum_iff_getElem?] at hin
          refine ⟨by simpa [← List.get?_eq_getElem?] using hin, ?_⟩
          simpa using hcr
      | ret => simp at heq
      | rother => simp at heq
    · rintro ⟨hget, hfalse⟩
      have hbi : bi < fn.blocks.length := by
        by_contra hbi
        rw [List.getD_eq_default] at hget
        · simp at hget
        · omega
      refine ⟨bi, List.mem_range.mpr hbi, ?_⟩
      rw [List.mem_filterMap]
      refine ⟨(ii, .callSelf), ?_, ?_⟩
      · rw [List.mk_mem_enum_iff_getElem?, ← List.get?_eq_getElem?]
        exact hget
      · simp only
        rw [if_neg (by simp [hfalse])]

/-- C3 (amended): the rule fires on (block, instruction) exactly when that
instruction is a direct self-call and, among all blocks of the function NOT
dominated by the call's block, none ends in a `Return` — equivalently (all
blocks being reachable from the entry, which go/ssa's block pruning
guarantees), exactly when no block ending in a `Return` is reachable from
the entry block without passing through the call's block.  The claim's other
reading — "if any path forward from the call's block reaches a Return, the
rule does not fire" — is refuted by `infinite_recursion_counterexample`. -/
theorem infinite_recursion_fires_iff (fn : RFunc) (bi ii : Nat)
    (hreach : ∀ j < fn.blocks.length, reachTo fn j = true) :
    ((bi, ii) ∈ checkInfiniteRecursion fn ↔
      ((fn.blocks.getD bi ⟨[], []⟩).instrs.get? ii = some .callSelf ∧
        ∀ j < fn.blocks.length, dominatesB fn bi j = false → endsRet fn j = false)) ∧
    ((bi, ii) ∈ checkInfiniteRecursion fn ↔
      ((fn.blocks.getD bi ⟨[], []⟩).instrs.get? ii = some .callSelf ∧
        ¬ ∃ j, j < fn.blocks.length ∧ AvoidPath fn bi j ∧ endsRet fn j = true)) := by
  have hcan : canReturn fn bi = true ↔
      ∃ j, j < fn.blocks.length ∧ AvoidPath fn bi j ∧ endsRet fn j = true := by
    unfold canReturn
    rw [List.any_eq_true]
    constructor
    · rintro ⟨j, hj, hpred⟩
      rw [List.mem_range] at hj
      simp only [Bool.and_eq_true, Bool.not_eq_true'] at hpred
      obtain ⟨hdom, hret⟩ := hpred
      unfold dominatesB at hdom
      rw [hreach j hj] at hdom
      simp only [Bool.true_and, Bool.not_eq_false'] at hdom
      exact ⟨j, hj, (reachDel_true_iff fn bi j).mp hdom, hret⟩
    · rintro ⟨j, hj, hpath, hret⟩
      refine ⟨j, List.mem_range.mpr hj, ?_⟩
      simp only [Bool.and_eq_true, Bool.not_eq_true']
      refine ⟨?_, hret⟩
      unfold dominatesB
      rw [hreach j hj, (reachDel_true_iff fn bi j).mpr hpath]
      rfl
  have hfalse1 : canReturn fn bi = false ↔
      ∀ j < fn.blocks.length, dominatesB fn bi j = false → endsRet fn j = false := by
    constructor
    · intro h j hj hdom
      cases hr : endsRet fn j with
      | false => rfl
      | true =>
        have htrue : canReturn fn bi = true := by
          unfold canReturn
          rw [List.any_eq_true]
          exact ⟨j, List.mem_range.mpr hj, by rw [hdom, hr]; rfl⟩
        rw [h] at htrue
        exact absurd htrue (by simp)
    · intro h
      cases hc : canReturn fn bi with
      | false => rfl
      | true =>
        unfold canReturn at hc
        rw [List.any_eq_true] at hc
        obtain ⟨j, hj, hpred⟩ := hc
        rw [List.mem_range] at hj
        simp only [Bool.and_eq_true, Bool.not_eq_true'] at hpred
        have hret := h j hj hpred.1
        rw [hpred.2] at hret
        exact absurd hret (by simp)
  constructor
  · rw [checkInfRec_mem fn bi ii]
    exact and_congr_right (fun _ => hfalse1)
  · rw [checkInfRec_mem fn bi ii]
    refine and_congr_right (fun _ => ?_)
    constructor
    · intro hf hex
      rw [hcan.mpr hex] at hf
      exact absurd hf (by simp)
    · intro hnex
      cases hc : canReturn fn bi with
      | false => rfl
      | true => exact absurd (hcan.mp hc) hnex

/-- Witness for `infinite_recursion_fires_iff`: the rule fires on the
self-call of `func f() { f(); return }` — the call sits in the entry block,
so every return is dominated by it. -/
theorem infinite_recursion_fires_iff_witness :
    (0, 0) ∈ checkInfiniteRecursion infRecExample :=
  ((infinite_recursion_fires_iff infRecExample 0 0 (by decide)).1).mpr
    ⟨by rfl, by decide⟩

/-! ## Ineffective appends (`CheckIneffectiveAppend`, lint.go:1771-1859) -/

/-- Kinds of referrer instructions distinguished by `walkRefs`
(lint.go:1819-1843): `*ssa.DebugRef` is skipped; a `*ssa.Phi` is recursed
into without counting as a use; a call of the built-in `append` is recursed
into; any other value instruction and any non-value instruction make
`isUsed` true. -/
inductive RefKind where
  | debugRef
  | phi
  | appendCall
  | otherValue
  | pureInstr
  deriving DecidableEq

/-- The def-use graph of the SSA function: per value id its kind and its
referrer list (`Referrers()`). -/
structure UseGraph where
  kinds : List RefKind
  refs : List (List Nat)

def kindOf (g : UseGraph) (r : Nat) : RefKind := g.kinds.getD r .pureInstr

def refsOf (g : UseGraph) (r : Nat) : List Nat := g.refs.getD r []

/-- Does the walk recurse through this referrer? (phi merge points and nested
append calls, lint.go:1830-1837.) -/
def refExpands (g : UseGraph) (r : Nat) : Bool :=
  kindOf g r == .phi || kindOf g r == .appendCall

/-- Is this referrer a real consumer? (any value that is not an append, and
any non-value instruction, lint.go:1832-1840.) -/
def refConsumes (g : UseGraph) (r : Nat) : Bool :=
  kindOf g r == .otherValue || kindOf g r == .pureInstr

def walkSucc (g : UseGraph) (r : Nat) : List Nat :=
  if refExpands g r then refsOf g r else []

/-- The recursive `walkRefs` closure (lint.go:1818-1843) with its `visited`
map, as the marked depth-first search: returns the final value of `isUsed`. -/
def walkRefsUsed (g : UseGraph) (roots : List Nat) : Bool :=
  (searchGo (List.range g.kinds.length) (walkSucc g) (refConsumes g) roots []).1

/-- The syntactic facts about the assignment that `CheckIneffectiveAppend`
inspects before walking the def-use chain (lint.go:1773-1802, 1844-1851). -/
structure AppendAssign where
  lhsIsIdent : Bool
  lhsIsBlank : Bool
  rhsIsAppendCall : Bool
  lhsIsNamedResult : Bool
  exprValue : Option Nat

/-- Shallow embedding of `CheckIneffectiveAppend` (lint.go:1771-1859) on one
assignment: the diagnostic fires when the left-hand side is a non-blank
identifier that is not a named result parameter, the right-hand side is a
call of the built-in `append`, the call has an SSA value, and the def-use
walk finds no real consumer. -/
def checkIneffectiveAppend (g : UseGraph) (a : AppendAssign) : Bool :=
  if !a.lhsIsIdent || a.lhsIsBlank then false
  else if !a.rhsIsAppendCall then false
  else if a.lhsIsNamedResult then false
  else
    match a.exprValue with
    | none => false
    | some root => !(walkRefsUsed g (refsOf g root))

/-- One step of the def-use walk: from a phi or a nested append call to one
of its referrers. -/
def UseStep (g : UseGraph) (x y : Nat) : Prop :=
  x < g.kinds.length ∧ (kindOf g x = .phi ∨ kindOf g x = .appendCall) ∧ y ∈ refsOf g x

/-- The walk can reach a consumer that is not itself an append call. -/
def ConsumerReached (g : UseGraph) (root : Nat) : Prop :=
  ∃ v r, v ∈ refsOf g root ∧ Relation.ReflTransGen (UseStep g) v r ∧
    (kindOf g r = .otherValue ∨ kindOf g r = .pureInstr)

theorem walkRefsUsed_true_iff (g : UseGraph) (root : Nat) :
    walkRefsUsed g (refsOf g root) = true ↔ ConsumerReached g root := by
  unfold walkRefsUsed
  rw [searchGo_true_iff _ _ _ _ _ (by intro x hx; simp at hx)]
  have hstep : ∀ x y, SearchStep (List.range g.kinds.length) (walkSucc g) x y ↔
      UseStep g x y := by
    intro x y
    unfold SearchStep UseStep walkSucc
    constructor
    · rintro ⟨hx, hy⟩
      rw [List.mem_range] at hx
      by_cases he : refExpands g x
      · rw [if_pos he] at hy
        unfold refExpands at he
        simp only [Bool.or_eq_true, beq_iff_eq] at he
        exact ⟨hx, he, hy⟩
      · rw [if_neg he] at hy
        simp at hy
    · rintro ⟨hx, hk, hy⟩
      refine ⟨List.mem_range.mpr hx, ?_⟩
      have he : refExpands g x = true := by
        unfold refExpands
        simp only [Bool.or_eq_true, beq_iff_eq]
        exact hk
      rw [if_pos he]
      exact hy
  have hhit : ∀ r, refConsumes g r = true ↔
      (kindOf g r = .otherValue ∨ kindOf g r = .pureInstr) := by
    intro r
    unfold refConsumes
    simp [Bool.or_eq_true, beq_iff_eq]
  unfold ConsumerReached
  constructor
  · rintro ⟨v, r, hv, hrtg, hr⟩
    exact ⟨v, r, hv, Relation.ReflTransGen.mono (fun x y h => (hstep x y).mp h) hrtg,
      (hhit r).mp hr⟩
  · rintro ⟨v, r, hv, hrtg, hr⟩
    exact ⟨v, r, hv, Relation.ReflTransGen.mono (fun x y h => (hstep x y).mpr h) hrtg,
      (hhit r).mpr hr⟩

/-- C8 (amended): for an assignment of a built-in `append` call to a
non-blank identifier that is *not a named result parameter of the enclosing
function*, the rule flags the assignment exactly when the def-use walk —
through phi merge points and nested append calls, with a visited set — never
reaches a consumer that is not itself an append call (debug instructions not
counting).  Assignments to named result parameters are never flagged, which
refutes the unqualified claim (`ineffective_append_counterexample`). -/
theorem ineffective_append_iff (g : UseGraph) (a : AppendAssign) (root : Nat)
    (h1 : a.lhsIsIdent = true) (h2 : a.lhsIsBlank = false)
    (h3 : a.rhsIsAppendCall = true) (h4 : a.lhsIsNamedResult = false)
    (h5 : a.exprValue = some root) :
    (checkIneffectiveAppend g a = true ↔ ¬ ConsumerReached g root) := by
  unfold checkIneffectiveAppend
  rw [h1, h2, h3, h4, h5]
  simp only [Bool.not_true, Bool.false_or, Bool.false_eq_true, if_false, if_neg]
  rw [Bool.not_eq_true']
  rw [← walkRefsUsed_true_iff g root]
  constructor
  · intro h hc
    rw [h] at hc
    exact absurd hc (by simp)
  · intro h
    cases hw : walkRefsUsed g (refsOf g root)
    · rfl
    · exact absurd hw h

/-- The def-use graph of `x = append(x, 1)` where the result value (id 0) is
consumed only by a nested append (id 1) that itself has no referrers. -/
def appendExampleGraph : UseGraph := ⟨[.appendCall, .appendCall], [[1], []]⟩

/-- Witness for `ineffective_append_iff`: with no consumer reachable and a
left-hand side that is not a named result, the rule fires. -/
theorem ineffective_append_iff_witness :
    checkIneffectiveAppend appendExampleGraph ⟨true, false, true, false, some 0⟩ = true := by
  refine (ineffective_append_iff appendExampleGraph _ 0 rfl rfl rfl rfl rfl).mpr ?_
  rintro ⟨v, r, hv, hrtg, hr⟩
  have hv1 : v = 1 := by simpa [refsOf, appendExampleGraph] using hv
  subst hv1
  have hr1 : r = 1 := by
    cases hrtg.cases_head with
    | inl h => exact h.symm
    | inr h =>
      obtain ⟨c, hstep, _⟩ := h
      obtain ⟨-, -, hc⟩ := hstep
      simp [refsOf, appendExampleGraph] at hc
  subst hr1
  simp [kindOf, appendExampleGraph] at hr

/-- C8 counterexample: the same assignment with the left-hand side being a
named result parameter of the enclosing function is not flagged
(lint.go:1793-1802), although the walk never reaches a non-append consumer —
the claimed equivalence does not hold for named results. -/
theorem ineffective_append_counterexample :
    checkIneffectiveAppend appendExampleGraph ⟨true, false, true, true, some 0⟩ = false ∧
    walkRefsUsed appendExampleGraph (refsOf appendExampleGraph 0) = false := by decide

/-! ## Unconditionally terminated loops (`CheckIneffectiveLoop`, lint.go:1538-1643)

This rule works on the Go AST.  Statements are modelled by `GStmt`: loops
carry the label attached to them (Go labels are unique per function, so
`labels[stmt.Label.Obj] == loop` is label equality), `sexpr` stands for any
statement the rule ignores, and `sswitch` covers switch, type-switch and
select statements (all treated alike).  A diagnostic is the pair (path of the
loop node in the tree, index of the flagged exit statement in its body). -/

inductive BTok where
  | brk | cont | goto
  deriving DecidableEq

mutual
inductive GStmt where
  | sexpr
  | sret
  | sbranch (tok : BTok) (label : Option String)
  | sif (thn els : GBlock)
  | sfor (lbl : Option String) (body : GBlock)
  | srange (lbl : Option String) (overMap : Bool) (body : GBlock)
  | sswitch (body : GBlock)

inductive GBlock where
  | bnil
  | bcons (s : GStmt) (rest : GBlock)
end

def GBlock.blen : GBlock → Nat
  | .bnil => 0
  | .bcons _ rest => rest.blen + 1

/-- `stmt.Label == nil || labels[stmt.Label.Obj] == loop` (lint.go:1600,
1604, 1626): an unlabeled branch targets the innermost loop, a labeled one
targets this loop exactly when the label is the loop's own. -/
def labelMatches (lbl l : Option String) : Bool :=
  match l with
  | none => true
  | some s => lbl == some s

/-- Result of the direct scan over the loop body (lint.go:1593-1614):
`abort` models the early `return false` on a `continue` targeting this loop;
otherwise the final `unconditionalExit` (as a body index) and `hasBranching`
are reported. -/
inductive ScanRes where
  | abort
  | done (exit : Option Nat) (hasBr : Bool)
  deriving DecidableEq

/-- The scan over the direct statements of the loop body (lint.go:1595-1614):
a `return` or a `break` targeting this loop records the statement (later ones
overwrite earlier ones), a `continue` targeting this loop aborts, branching
constructs set `hasBranching`, everything else is ignored. -/
def directScan (lbl : Option String) : GBlock → Nat → Option Nat → Bool → ScanRes
  | .bnil, _, ex, hb => .done ex hb
  | .bcons s rest, i, ex, hb =>
    match s with
    | .sret => directScan lbl rest (i + 1) (some i) hb
    | .sbranch .brk l =>
      if labelMatches lbl l then directScan lbl rest (i + 1) (some i) hb
      else directScan lbl rest (i + 1) ex hb
    | .sbranch .cont l =>
      if labelMatches lbl l then .abort
      else directScan lbl rest (i + 1) ex hb
    | .sbranch .goto _ => directScan lbl rest (i + 1) ex hb
    | .sif _ _ => directScan lbl rest (i + 1) ex true
    | .sfor _ _ => directScan lbl rest (i + 1) ex true
    | .srange _ _ _ => directScan lbl rest (i + 1) ex true
    | .sswitch _ => directScan lbl rest (i + 1) ex true
    | .sexpr => directScan lbl rest (i + 1) ex hb

mutual
/-- The nested `ast.Inspect` (lint.go:1618-1634) that withdraws the
diagnostic: does the whole body subtree contain a `goto`, or a `continue`
that is unlabeled or targets this loop? -/
def hasKillerS (lbl : Option String) : GStmt → Bool
  | .sbranch .goto _ => true
  | .sbranch .cont l => labelMatches lbl l
  | .sbranch .brk _ => false
  | .sret => false
  | .sexpr => false
  | .sif t e => hasKillerB lbl t || hasKillerB lbl e
  | .sfor _ body => hasKillerB lbl body
  | .srange _ _ body => hasKillerB lbl body
  | .sswitch body => hasKillerB lbl body

def hasKillerB (lbl : Option String) : GBlock → Bool
  | .bnil => false
  | .bcons s rest => hasKillerS lbl s || hasKillerB lbl rest
end

/-- What the rule does at one loop node (lint.go:1587-1637): `descendOnly`
models `return true` without a diagnostic, `prune` models `return false`
(the subtree, nested loops included, is not traversed further), and `fire i`
emits the diagnostic on body statement `i` and keeps traversing. -/
inductive LoopRes where
  | descendOnly
  | prune
  | fire (exitIdx : Nat)
  deriving DecidableEq

def analyzeLoop (lbl : Option String) (body : GBlock) : LoopRes :=
  if body.blen < 2 then .descendOnly
  else
    match directScan lbl body 0 none false with
    | .abort => .prune
    | .done none _ => .prune
    | .done (some _) false => .prune
    | .done (some i) true =>
      if hasKillerB lbl body then .descendOnly else .fire i

mutual
/-- The outer `ast.Inspect` of `CheckIneffectiveLoop` (lint.go:1565-1639) on
one statement at tree path `p`: loops are analysed (range loops over maps are
exempted at lint.go:1577-1581), every other node just descends, and `prune`
stops the descent into the loop's subtree. -/
def inspectS : GStmt → List Nat → List (List Nat × Nat)
  | .sexpr, _ => []
  | .sret, _ => []
  | .sbranch _ _, _ => []
  | .sif t e, p => inspectB t (p ++ [0]) 0 ++ inspectB e (p ++ [1]) 0
  | .sswitch body, p => inspectB body (p ++ [0]) 0
  | .sfor lbl body, p =>
    (match analyzeLoop lbl body with
     | .descendOnly => inspectB body (p ++ [0]) 0
     | .prune => []
     | .fire i => (p, i) :: inspectB body (p ++ [0]) 0)
  | .srange lbl overMap body, p =>
    if overMap then inspectB body (p ++ [0]) 0
    else
      (match analyzeLoop lbl body with
       | .descendOnly => inspectB body (p ++ [0]) 0
       | .prune => []
       | .fire i => (p, i) :: inspectB body (p ++ [0]) 0)

def inspectB : GBlock → List Nat → Nat → List (List Nat × Nat)
  | .bnil, _, _ => []
  | .bcons s rest, p, i => inspectS s (p ++ [i]) ++ inspectB rest p (i + 1)
end

theorem lt_of_append_lt {p q : List Nat} {x : Nat} (h : (p ++ [x]).length < q.length) :
    p.length < q.length := by
  simp only [List.length_append, List.length_cons, List.length_nil] at h
  omega

mutual
theorem inspectS_path (s : GStmt) (p q : List Nat) (k : Nat)
    (h : (q, k) ∈ inspectS s p) : q = p ∨ p.length < q.length := by
  cases s with
  | sexpr => simp [inspectS] at h
  | sret => simp [inspectS] at h
  | sbranch tok l => simp [inspectS] at h
  | sif t e =>
    simp only [inspectS, List.mem_append] at h
    rcases h with h | h
    · exact Or.inr (lt_of_append_lt (inspectB_path t (p ++ [0]) 0 q k h))
    · exact Or.inr (lt_of_append_lt (inspectB_path e (p ++ [1]) 0 q k h))
  | sswitch body =>
    simp only [inspectS] at h
    exact Or.inr (lt_of_append_lt (inspectB_path body (p ++ [0]) 0 q k h))
  | sfor lbl body =>
    simp only [inspectS] at h
    cases hr : analyzeLoop lbl body with
    | descendOnly =>
      rw [hr] at h
      exact Or.inr (lt_of_append_lt (inspectB_path body (p ++ [0]) 0 q k h))
    | prune => rw [hr] at h; simp at h
    | fire i =>
      rw [hr] at h
      rcases List.mem_cons.mp h with h1 | h1
      · exact Or.inl (congrArg Prod.fst h1)
      · exact Or.inr (lt_of_append_lt (inspectB_path body (p ++ [0]) 0 q k h1))
  | srange lbl overMap body =>
    simp only [inspectS] at h
    by_cases hm : overMap
    · rw [if_pos hm] at h
      exact Or.inr (lt_of_append_lt (inspectB_path body (p ++ [0]) 0 q k h))
    · rw [if_neg hm] at h
      cases hr : analyzeLoop lbl body with
      | descendOnly =>
        rw [hr] at h
        exact Or.inr (lt_of_append_lt (inspectB_path body (p ++ [0]) 0 q k h))
      | prune => rw [hr] at h; simp at h
      | fire i =>
        rw [hr] at h
        rcases List.mem_cons.mp h with h1 | h1
        · exact Or.inl (congrArg Prod.fst h1)
        · exact Or.inr (lt_of_append_lt (inspectB_path body (p ++ [0]) 0 q k h1))

theorem inspectB_path (b : GBlock) (p : List Nat) (i : Nat) (q : List Nat) (k : Nat)
    (h : (q, k) ∈ inspectB b p i) : p.length < q.length := by
  cases b with
  | bnil => simp [inspectB] at h
  | bcons s rest =>
    simp only [inspectB, List.mem_append] at h
    rcases h with h | h
    · rcases inspectS_path s (p ++ [i]) q k h with h1 | h1
      · rw [h1]
        simp
      · exact lt_of_append_lt h1
    · exact inspectB_path rest p (i + 1) q k h
end

/-- C9: a range loop whose ranged operand has map type is never flagged,
regardless of its body: the walk emits no diagnostic at the loop's own path
(it only descends into the body). -/
theorem maprange_never_flagged (lbl : Option String) (body : GBlock) (p : List Nat) :
    (inspectS (.srange lbl true body) p).filter (fun d => d.1 == p) = [] := by
  simp only [inspectS, if_pos]
  rw [List.filter_eq_nil_iff]
  rintro ⟨q, k⟩ hd
  have hlen := inspectB_path body (p ++ [0]) 0 q k hd
  simp only [List.length_append, List.length_cons, List.length_nil] at hlen
  simp only [beq_iff_eq]
  intro hq
  rw [hq] at hlen
  omega

/-- The value kinds the rule inspects: the receiver parameter, a
`*ssa.FieldAddr` (operand, field index, source position), a `*ssa.UnOp` with
`Op == token.MUL` (operand, position), or anything else. -/
inductive VKind where
  | param
  | fieldAddr (x : Nat) (field : Nat) (pos : Int)
  | unopLoad (x : Nat) (pos : Int)
  | otherVal
  deriving DecidableEq

/-- The instruction shapes of the first pass (lint.go:1136-1166): a
`*ssa.Store` (address, stored value), a `*ssa.UnOp` load producing value `v`,
and anything else. -/
inductive MInstr where
  | store (addr : Nat) (val : Nat)
  | unop (v : Nat)
  | skipIns
  deriving DecidableEq

structure MBlock where
  instrs : List MInstr
  succs : List Nat
  deriving DecidableEq

structure SSAFn where
  vals : List VKind
  blocks : List MBlock
  recvIsStruct : Bool
  locals : List Bool
  fieldNames : List String
  deriving DecidableEq

def valKind (fn : SSAFn) (v : Nat) : VKind := fn.vals.getD v .otherVal

def succsOfM (fn : SSAFn) (b : Nat) : List Nat := (fn.blocks.getD b ⟨[], []⟩).succs

/-- One instruction of the first pass (lint.go:1136-1166), transforming the
state (recvPtrs alias set, writes of the current block, reads of the current
block): a store of a tracked pointer extends the alias set, a store through a
`FieldAddr` of a tracked value records a write, a `*`-load of a tracked value
records a whole-receiver read, and a `*`-load of a `FieldAddr` of a tracked
value records a field read. -/
def stepInstr (fn : SSAFn) :
    List Nat × List Nat × List Nat → MInstr → List Nat × List Nat × List Nat
  | (rp, ws, rs), .store addr val =>
    let rp' := if val ∈ rp then (if addr ∈ rp then rp else addr :: rp) else rp
    match valKind fn addr with
    | .fieldAddr x _ _ =>
      if x ∈ rp' then (rp', if addr ∈ ws then ws else ws ++ [addr], rs)
      else (rp', ws, rs)
    | _ => (rp', ws, rs)
  | (rp, ws, rs), .unop v =>
    match valKind fn v with
    | .unopLoad x _ =>
      if x ∈ rp then (rp, ws, if v ∈ rs then rs else rs ++ [v])
      else
        match valKind fn x with
        | .fieldAddr x' _ _ =>
          if x' ∈ rp then (rp, ws, if x ∈ rs then rs else rs ++ [x])
          else (rp, ws, rs)
        | _ => (rp, ws, rs)
    | _ => (rp, ws, rs)
  | st, .skipIns => st

/-- The first pass over the blocks in `DomPreorder` order (lint.go:1127-1168),
threading the alias set and collecting the per-block write and read sets. -/
def passBlocks (fn : SSAFn) : List MBlock → List Nat → List (List Nat) × List (List Nat)
  | [], _ => ([], [])
  | b :: rest, rp =>
    let st := b.instrs.foldl (stepInstr fn) (rp, [], [])
    let t := passBlocks fn rest st.1
    (st.2.1 :: t.1, st.2.2 :: t.2)

def fieldWrites (fn : SSAFn) : List (List Nat) := (passBlocks fn fn.blocks [0]).1

def fieldReads (fn : SSAFn) : List (List Nat) := (passBlocks fn fn.blocks [0]).2

def faField (fn : SSAFn) (w : Nat) : Nat :=
  match valKind fn w with
  | .fieldAddr _ f _ => f
  | _ => 0

def faPos (fn : SSAFn) (w : Nat) : Int :=
  match valKind fn w with
  | .fieldAddr _ _ p => p
  | _ => 0

/-- The read test inside `hasRead` (lint.go:1175-1186): a `FieldAddr` read of
the same field at a strictly later position, or a whole-receiver load at a
position at least the write's. -/
def readHit (fn : SSAFn) (wf : Nat) (wp : Int) (r : Nat) : Bool :=
  match valKind fn r with
  | .fieldAddr _ f p => f == wf && decide (wp < p)
  | .unopLoad _ p => decide (wp ≤ p)
  | _ => false

def anyReadHit (fn : SSAFn) (reads : List (List Nat)) (wf : Nat) (wp : Int)
    (b : Nat) : Bool :=
  (reads.getD b []).any (readHit fn wf wp)

/-- The recursive `hasRead` (lint.go:1172-1195): the root block is marked and
tested unconditionally, then the forward DFS over successor blocks runs with
the given (shared!) `seen` map. -/
def hasReadGo (fn : SSAFn) (reads : List (List Nat)) (wf : Nat) (wp : Int)
    (root : Nat) (seen : List Nat) : Bool × List Nat :=
  let seen1 := if root ∈ seen then seen else root :: seen
  if anyReadHit fn reads wf wp root then (true, seen1)
  else
    searchGo (List.range fn.blocks.length) (succsOfM fn)
      (anyReadHit fn reads wf wp) (succsOfM fn root) seen1

/-- The write loop of one block (lint.go:1196-1202) in the order given by
`ws`, threading the block's shared `seen` map from write to write. -/
def processWrites (fn : SSAFn) (reads : List (List Nat)) (b : Nat) :
    List Nat → List Nat → List (Nat × String)
  | [], _ => []
  | w :: rest, seen =>
    let r := hasReadGo fn reads (faField fn w) (faPos fn w) b seen
    (if r.1 then [] else [(w, fn.fieldNames.getD (faField fn w) "")]) ++
      processWrites fn reads b rest r.2

/-- The early guards of the rule (lint.go:1101-1126): a method with a body,
a struct-typed receiver, and a first local that exists and is not
heap-allocated. -/
def fieldGuards (fn : SSAFn) : Bool :=
  !(fn.blocks.length == 0) && fn.recvIsStruct &&
    !(fn.locals.length == 0) && !(fn.locals.headD true)

/-- The canonical enumeration of the `writes` map: every block (the first
pass creates an entry for each, lint.go:1129-1131) with its write list in
encounter order. -/
def canonicalWrites (fn : SSAFn) : List (Nat × List Nat) :=
  (List.range fn.blocks.length).map fun b => (b, (fieldWrites fn).getD b [])

/-- Is `sched` a possible iteration order of the `writes` map?  Distinct
keys, and the same entries as the canonical enumeration with each write list
permuted arbitrarily. -/
def validSched (fn : SSAFn) (sched : List (Nat × List Nat)) : Prop :=
  (sched.map Prod.fst).Nodup ∧
  (∀ q ∈ canonicalWrites fn, ∃ p ∈ sched, p.1 = q.1 ∧ p.2.isPerm q.2 = true) ∧
  (∀ p ∈ sched, ∃ q ∈ canonicalWrites fn, p.1 = q.1 ∧ p.2.isPerm q.2 = true)

/-- Shallow embedding of `CheckIneffecitiveFieldAssignments`
(lint.go:1095-1208) on one method, given an enumeration order `sched` of the
`writes` map: after the guards, each scheduled block's writes are checked
with `hasRead`; the `seen` map is created once per block and shared across
that block's writes (lint.go:1170-1172), and each dead store is flagged with
its field's name. -/
def checkFieldAssignments (fn : SSAFn) (sched : List (Nat × List Nat)) :
    List (Nat × String) :=
  if fieldGuards fn then
    sched.flatMap fun p => processWrites fn (fieldReads fn) p.1 p.2 []
  else []

/-- A method that stores to field 0 ("A", never read) and to field 1 ("B",
read later in the successor block) in the same block, then loads field 1. -/
def fieldExample : SSAFn :=
  ⟨[.param, .fieldAddr 0 0 10, .fieldAddr 0 1 11, .fieldAddr 0 1 20, .unopLoad 3 21,
    .otherVal, .otherVal],
   [⟨[.store 1 5, .store 2 6], [1]⟩, ⟨[.unop 4], []⟩],
   true, [false], ["A", "B"]⟩

/-- Modelled from the claim's words: a read of the same field with a later
position exists in some block reachable from the write's block by a forward
CFG walk (the write's block included). -/
def specLaterRead (fn : SSAFn) (b w : Nat) : Bool :=
  (searchGo (List.range fn.blocks.length) (succsOfM fn)
    (anyReadHit fn (fieldReads fn) (faField fn w) (faPos fn w)) [b] []).1

/-- C5 counterexample: in `fieldExample`, the store to field "B" (value 2) is
flagged by the canonical-order run even though a read of field "B" at a later
position is reachable from the write's block: the `seen` map, already filled
by the dead-store check of the sibling write to "A", stops the forward walk
of the second write at its root block. -/
theorem field_store_counterexample :
    specLaterRead fieldExample 0 2 = true ∧
    checkFieldAssignments fieldExample (canonicalWrites fieldExample) =
      [(1, "A"), (2, "B")] := by decide

/-- C7 counterexample: two valid enumeration orders of the same `writes` map
— Go's map iteration order is unspecified, so both orders occur across runs —
produce different diagnostic lists on the unchanged `fieldExample`: checking
the write to "B" first finds its read; checking it second does not, because
the `seen` map shared across the block's writes already covers every
successor. -/
theorem field_assignments_nondeterminism_counterexample :
    validSched fieldExample [(0, [1, 2]), (1, [])] ∧
    validSched fieldExample [(0, [2, 1]), (1, [])] ∧
    checkFieldAssignments fieldExample [(0, [1, 2]), (1, [])] = [(1, "A"), (2, "B")] ∧
    checkFieldAssignments fieldExample [(0, [2, 1]), (1, [])] = [(1, "A")] := by
  refine ⟨?_, ?_, by decide, by decide⟩
  · unfold validSched
    exact ⟨by decide, by decide, by decide⟩
  · unfold validSched
    exact ⟨by decide, by decide, by decide⟩

theorem isPerm_short_eq {l l' : List Nat} (h : l.isPerm l' = true) (hs : l'.length ≤ 1) :
    l = l' := by
  have hp := List.isPerm_iff.mp h
  cases l' with
  | nil => exact hp.eq_nil
  | cons a t =>
    cases t with
    | nil => exact List.perm_singleton.mp hp
    | cons b t2 => simp at hs

theorem validSched_values (fn : SSAFn) (s : List (Nat × List Nat))
    (h : validSched fn s) (hs : ∀ q ∈ canonicalWrites fn, q.2.length ≤ 1) :
    ∀ p ∈ s, p.2 = (fieldWrites fn).getD p.1 [] := by
  intro p hp
  obtain ⟨-, -, h3⟩ := h
  obtain ⟨q, hq, hfst, hperm⟩ := h3 p hp
  have hq2 : q.2 = (fieldWrites fn).getD q.1 [] := by
    unfold canonicalWrites at hq
    rw [List.mem_map] at hq
    obtain ⟨b, _, hb⟩ := hq
    rw [← hb]
  rw [isPerm_short_eq hperm (hs q hq), hq2, hfst]

theorem sched_eq_of_keys (W : Nat → List Nat) :
    ∀ (s₁ s₂ : List (Nat × List Nat)),
    (∀ p ∈ s₁, p.2 = W p.1) → (∀ p ∈ s₂, p.2 = W p.1) →
    s₁.map Prod.fst = s₂.map Prod.fst → s₁ = s₂ := by
  intro s₁
  induction s₁ with
  | nil =>
    intro s₂ _ _ hk
    cases s₂ with
    | nil => rfl
    | cons p2 t2 => simp at hk
  | cons p t ih =>
    intro s₂ h1 h2 hk
    cases s₂ with
    | nil => simp at hk
    | cons p2 t2 =>
      simp only [List.map_cons, List.cons.injEq] at hk
      have hpp : p = p2 := by
        have e1 := h1 p (by simp)
        have e2 := h2 p2 (by simp)
        exact Prod.ext hk.1 (by rw [e1, e2, hk.1])
      rw [hpp, ih t2 (fun q hq => h1 q (by simp [hq])) (fun q hq => h2 q (by simp [hq]))
        hk.2]

/-- C7 (amended): the rule is a pure function of the method and of the
(unspecified) iteration order of its internal `writes` map.  Two runs agree
whenever they enumerate the blocks in the same order and every block holds at
most one tracked store; with several tracked stores in one block, different
enumeration orders can produce different diagnostics
(`field_assignments_nondeterminism_counterexample`), because the `seen` map
is shared across the writes of a block. -/
theorem field_assignments_deterministic (fn : SSAFn) (s₁ s₂ : List (Nat × List Nat))
    (h₁ : validSched fn s₁) (h₂ : validSched fn s₂)
    (hk : s₁.map Prod.fst = s₂.map Prod.fst)
    (hs : ∀ q ∈ canonicalWrites fn, q.2.length ≤ 1) :
    checkFieldAssignments fn s₁ = checkFieldAssignments fn s₂ := by
  have e : s₁ = s₂ :=
    sched_eq_of_keys (fun b => (fieldWrites fn).getD b []) s₁ s₂
      (validSched_values fn s₁ h₁ hs) (validSched_values fn s₂ h₂ hs) hk
  rw [e]

/-- A method that writes field "Name" (value 1) and never reads it. -/
def fieldWitnessFn : SSAFn :=
  ⟨[.param, .fieldAddr 0 0 10, .otherVal], [⟨[.store 1 2], []⟩], true, [false], ["Name"]⟩

/-- Witness for `field_assignments_deterministic` on a method with a single
tracked store. -/
theorem field_assignments_deterministic_witness :
    checkFieldAssignments fieldWitnessFn (canonicalWrites fieldWitnessFn) =
      checkFieldAssignments fieldWitnessFn (canonicalWrites fieldWitnessFn) :=
  field_assignments_deterministic fieldWitnessFn _ _
    (by unfold validSched; exact ⟨by decide, by decide, by decide⟩)
    (by unfold validSched; exact ⟨by decide, by decide, by decide⟩) rfl (by decide)

/-- A forward CFG step between blocks of the method. -/
def BlockStep (fn : SSAFn) (x y : Nat) : Prop :=
  x < fn.blocks.length ∧ y ∈ succsOfM fn x

theorem hasReadGo_iff (fn : SSAFn) (reads : List (List Nat)) (wf : Nat) (wp : Int)
    (b : Nat) (hb : b < fn.blocks.length) :
    (hasReadGo fn reads wf wp b []).1 = true ↔
      ∃ b', Relation.ReflTransGen (BlockStep fn) b b' ∧
        anyReadHit fn reads wf wp b' = true := by
  unfold hasReadGo
  rw [if_neg (List.not_mem_nil b)]
  by_cases hroot : anyReadHit fn reads wf wp b = true
  · rw [if_pos hroot]
    exact iff_of_true rfl ⟨b, Relation.ReflTransGen.refl, hroot⟩
  · rw [if_neg hroot]
    have hInv : SearchInv (List.range fn.blocks.length) (succsOfM fn)
        (anyReadHit fn reads wf wp) (succsOfM fn b) [b] := by
      intro x hx
      rw [List.mem_singleton] at hx
      subst hx
      exact ⟨by simpa using hroot, fun _ y hy => Or.inr hy⟩
    rw [searchGo_true_iff _ _ _ _ _ hInv]
    constructor
    · rintro ⟨v, r, hv, hrtg, hr⟩
      refine ⟨r, ?_, hr⟩
      refine Relation.ReflTransGen.head ⟨hb, hv⟩ ?_
      refine Relation.ReflTransGen.mono (fun x y h => ?_) hrtg
      obtain ⟨hx, hy⟩ := h
      exact ⟨List.mem_range.mp hx, hy⟩
    · rintro ⟨b', hrtg, hhit⟩
      cases hrtg.cases_head with
      | inl h =>
        subst h
        exact absurd hhit hroot
      | inr h =>
        obtain ⟨c, hstep, hrest⟩ := h
        refine ⟨c, b', hstep.2, ?_, hhit⟩
        refine Relation.ReflTransGen.mono (fun x y h => ?_) hrest
        obtain ⟨hx, hy⟩ := h
        exact ⟨List.mem_range.mpr hx, hy⟩

theorem processWrites_fst (fn : SSAFn) (reads : List (List Nat)) (b : Nat) :
    ∀ (ws seen : List Nat) (d : Nat × String), d ∈ processWrites fn reads b ws seen →
      d.1 ∈ ws := by
  intro ws
  induction ws with
  | nil => intro seen d h; simp [processWrites] at h
  | cons w rest ih =>
    intro seen d h
    simp only [processWrites, List.mem_append] at h
    rcases h with h | h
    · split at h
      · simp at h
      · rw [List.mem_singleton] at h
        rw [h]
        exact List.mem_cons_self w rest
    · exact List.mem_cons_of_mem w (ih _ d h)

/-- C5 (amended): for a method passing the rule's guards and a Store that is
the *only tracked store of its block*, the rule flags the store — naming its
field — exactly when no read of the same field with a later position (a
whole-receiver load counting as a read of every field) exists in any block
reachable from the write's block by a forward CFG walk.  With several tracked
stores in one block the equivalence fails (`field_store_counterexample`),
because the `seen` map of the walk is shared across the block's writes. -/
theorem field_store_flag_iff (fn : SSAFn) (b w : Nat)
    (hg : fieldGuards fn = true)
    (hb : b < fn.blocks.length)
    (hw : (fieldWrites fn).getD b [] = [w])
    (hother : ∀ i, i ≠ b → w ∉ (fieldWrites fn).getD i []) :
    ((w, fn.fieldNames.getD (faField fn w) "") ∈
        checkFieldAssignments fn (canonicalWrites fn) ↔
      ¬ ∃ b' r, Relation.ReflTransGen (BlockStep fn) b b' ∧
        r ∈ (fieldReads fn).getD b' [] ∧
        readHit fn (faField fn w) (faPos fn w) r = true) := by
  have hiff := hasReadGo_iff fn (fieldReads fn) (faField fn w) (faPos fn w) b hb
  have hexiff : (∃ b', Relation.ReflTransGen (BlockStep fn) b b' ∧
      anyReadHit fn (fieldReads fn) (faField fn w) (faPos fn w) b' = true) ↔
      (∃ b' r, Relation.ReflTransGen (BlockStep fn) b b' ∧
        r ∈ (fieldReads fn).getD b' [] ∧
        readHit fn (faField fn w) (faPos fn w) r = true) := by
    unfold anyReadHit
    constructor
    · rintro ⟨b', hrtg, hhit⟩
      rw [List.any_eq_true] at hhit
      obtain ⟨r, hr, hrh⟩ := hhit
      exact ⟨b', r, hrtg, hr, hrh⟩
    · rintro ⟨b', r, hrtg, hr, hrh⟩
      exact ⟨b', hrtg, List.any_eq_true.mpr ⟨r, hr, hrh⟩⟩
  unfold checkFieldAssignments
  rw [if_pos hg, List.mem_flatMap]
  constructor
  · rintro ⟨p, hp, hmem⟩ hex
    unfold canonicalWrites at hp
    rw [List.mem_map] at hp
    obtain ⟨i, hi, hpi⟩ := hp
    subst hpi
    have hfst := processWrites_fst fn (fieldReads fn) i _ [] _ hmem
    simp only at hfst
    have hieq : i = b := by
      by_contra hne
      exact hother i hne hfst
    subst hieq
    rw [hw] at hmem
    simp only [processWrites, List.append_nil] at hmem
    split at hmem
    · simp at hmem
    · rename_i hfalse
      exact hfalse (hiff.mpr (hexiff.mpr hex))
  · intro hnex
    refine ⟨(b, (fieldWrites fn).getD b []), ?_, ?_⟩
    · unfold canonicalWrites
      rw [List.mem_map]
      exact ⟨b, List.mem_range.mpr hb, rfl⟩
    · simp only [hw, processWrites, List.append_nil]
      rw [if_neg (fun htrue => hnex (hexiff.mp (hiff.mp htrue)))]
      exact List.mem_singleton.mpr rfl

/-- Witness for `field_store_flag_iff`: a method that writes field "Name" and
never reads it is flagged, naming "Name" — the end-to-end scenario of the
spec. -/
theorem field_store_flag_iff_witness :
    (1, "Name") ∈ checkFieldAssignments fieldWitnessFn (canonicalWrites fieldWitnessFn) := by
  refine (field_store_flag_iff fieldWitnessFn 0 1 (by decide) (by decide) (by decide)
    ?_).mpr ?_
  · intro i hi
    cases i with
    | zero => exact absurd rfl hi
    | succ n =>
      rw [show fieldWrites fieldWitnessFn = [[1]] from rfl]
      rw [List.getD_eq_default]
      · simp
      · simp
  · rintro ⟨b', r, _, hr, _⟩
    have hempty : (fieldReads fieldWitnessFn).getD b' [] = [] := by
      rw [show fieldReads fieldWitnessFn = [[]] from rfl]
      cases b' with
      | zero => rfl
      | succ n =>
        rw [List.getD_eq_default]
        simp
    rw [hempty] at hr
    simp at hr

end StaticCheck
